import Mathlib

/-!
Verification of the autoregressive sampling core of SwissArmyTransformer
(`sat/generation/autoregressive_sampling.py`) and the GLM mask/position
builder (`examples/glm/inference_glm.py`), via a shallow embedding.

Tensors are modelled as nested lists.  The hidden dimension of an
activation column is kept as a list of integers (its values are never
inspected by the generation code).  Machine floating point enters only in
the perplexity scorer's softmax, which no claim touches; token ids and
cached activations are integers throughout the modelled code paths.
-/

namespace SatGen

/-- One activation column's payload (the `2d` hidden axis). -/
abbrev Hidden := List Int

/-- One batch row of one layer: a list of columns (`[length, 2d]`). -/
abbrev Row := List Hidden

/-- One layer of cache: `[batch, length, 2d]`. -/
abbrev LayerT := List Row

/-- A full cache (`mems`): `[num_layers, batch, length, 2d]`. -/
abbrev Mem := List LayerT

/-- Batched token buffer: `[batch, current_length]`. -/
abbrev Toks := List (List Int)

/-- Last-step logits: `[batch, vocab]`. -/
abbrev Logits := List (List Int)

/-- `m.shape[1]` of a 4-d tensor (batch axis), read off the first layer. -/
def shape1 (m : Mem) : Nat := (m.headD []).length

/-- `m.shape[2]` of a 4-d tensor (length axis), read off the first row of
the first layer. -/
def shape2 (m : Mem) : Nat := ((m.headD []).headD []).length

/-- Python slicing `l[-n:]` for a nonnegative `n`: for `n = 0` this is
`l[0:]`, i.e. the whole list (Python `-0 == 0`), otherwise the last `n`
entries (all of `l` when `n ≥ len(l)`). -/
def slicePyLast (n : Nat) (l : List α) : List α :=
  if n = 0 then l else l.drop (l.length - n)

/-- The last `n` entries of a list (the "most recent `n` columns" of the
spec's wording); the whole list when `n ≥ len(l)`. -/
def takeLast (n : Nat) (l : List α) : List α := l.drop (l.length - n)

/-- `mems.expand(-1, b, -1, -1)`: broadcast a singleton batch axis to `b`
rows.  torch only permits expanding a size-1 axis; on any other size it
raises, which the call sites never trigger — a non-singleton batch is kept
unchanged here. -/
def expandBatch (b : Nat) (m : Mem) : Mem :=
  m.map fun l => if l.length = 1 then List.replicate b (l.headD []) else l

/-- `torch.cat((a, b), dim=2)`: concatenate two caches along the length
axis.  torch requires the layer and batch axes to agree; `zipWith`
truncates on a mismatch, which well-formed call sites never trigger. -/
def cat2 (a b : Mem) : Mem :=
  List.zipWith (fun la lb => List.zipWith (fun ra rb => ra ++ rb) la lb) a b

/-- `update_mems(hiddens, mems, max_memory_length)`
(`autoregressive_sampling.py` lines 29-49).  `hiddens` is `None` or the
list of per-layer `[batch, query_length, 2d]` activations;
`torch.stack(hiddens)` is the list itself in this nested-list model.
The negative slices `[:, :, -n:]` follow Python's `-0 == 0` semantics via
`slicePyLast`.  In the concatenation branch `mems` is necessarily present
(`new_memory_length > query_length` forces `memory_length > 0`); the code
would raise on `None` there, modelled by the unreachable `none` arm. -/
def update_mems (hiddens : Option Mem) (mems : Option Mem)
    (max_memory_length : Nat) : Option Mem :=
  match hiddens with
  | none => none
  | some hs =>
    let memory_length : Nat := match mems with | none => 0 | some m => shape2 m
    let query_length : Nat := shape2 hs
    let new_memory_length := min max_memory_length (memory_length + query_length)
    if new_memory_length ≤ query_length then
      some (hs.map fun l => l.map fun r => slicePyLast new_memory_length r)
    else
      match mems with
      | none => none
      | some m =>
        let m' := if shape1 m < shape1 hs then expandBatch (shape1 hs) m else m
        some (cat2 (m'.map fun l => l.map fun r =>
          slicePyLast (new_memory_length - query_length) r) hs)

/-- The merge result as the specification describes it (C3):
`new_length = min(L, p + q)`; if `new_length ≤ q` the most recent
`new_length` columns of the new chunk, otherwise the most recent
`new_length − q` columns of previous memory (batch-broadcast-expanded when
the new chunk's batch is larger) followed by the whole new chunk. -/
def update_mems_claim (hs : Mem) (mems : Option Mem) (L : Nat) : Mem :=
  let p : Nat := match mems with | none => 0 | some m => shape2 m
  let q : Nat := shape2 hs
  let n := min L (p + q)
  if n ≤ q then
    hs.map fun l => l.map fun r => takeLast n r
  else
    match mems with
    | none => []
    | some m =>
      let m' := if shape1 m < shape1 hs then expandBatch (shape1 hs) m else m
      cat2 (m'.map fun l => l.map fun r => takeLast (n - q) r) hs

/-- `[num_layers, batch, length, 2d]` rectangularity: `k` layers, each with
`b` batch rows of exactly `q` columns.  Real tensors always satisfy this. -/
def rectQ (k b q : Nat) (m : Mem) : Prop :=
  m.length = k ∧ ∀ l ∈ m, l.length = b ∧ ∀ r ∈ l, r.length = q

instance (k b q : Nat) (m : Mem) : Decidable (rectQ k b q m) := by
  unfold rectQ; infer_instance

/-- Folding the cache updater over a list of per-step activation chunks,
starting from the empty cache: the memory produced by a whole sequence of
merge operations with memory bound `L`. -/
def mergeAll (L : Nat) (chunks : List Mem) : Option Mem :=
  chunks.foldl (fun m c => update_mems (some c) m L) none

/-- The accumulated length of a cache (`mems.shape[2]`); 0 for an absent
cache. -/
def memLen : Option Mem → Nat
  | none => 0
  | some m => shape2 m

theorem slicePyLast_of_pos (n : Nat) (h : 1 ≤ n) (l : List α) :
    slicePyLast n l = takeLast n l := by
  unfold slicePyLast takeLast
  rw [if_neg (by omega : ¬ n = 0)]

theorem takeLast_length (n : Nat) (l : List α) :
    (takeLast n l).length = min n l.length := by
  simp [takeLast, List.length_drop]; omega

theorem slicePyLast_length (n : Nat) (l : List α) (h : 1 ≤ n) :
    (slicePyLast n l).length = min n l.length := by
  rw [slicePyLast_of_pos n h, takeLast_length]

theorem mem_zipWith_ex {f : α → β → γ} {a : List α} {b : List β} {c : γ}
    (h : c ∈ List.zipWith f a b) : ∃ x ∈ a, ∃ y ∈ b, c = f x y := by
  induction a generalizing b with
  | nil => simp at h
  | cons x xs ih =>
    cases b with
    | nil => simp at h
    | cons y ys =>
      simp only [List.zipWith_cons_cons, List.mem_cons] at h
      rcases h with h | h
      · exact ⟨x, List.mem_cons_self x xs, y, List.mem_cons_self y ys, h⟩
      · rcases ih h with ⟨x', hx', y', hy', hc⟩
        exact ⟨x', List.mem_cons_of_mem _ hx', y', List.mem_cons_of_mem _ hy', hc⟩

theorem rectQ_shape2 {k b q : Nat} {m : Mem} (h : rectQ k b q m)
    (hk : 1 ≤ k) (hb : 1 ≤ b) : shape2 m = q := by
  obtain ⟨hlen, hall⟩ := h
  cases m with
  | nil => simp at hlen; omega
  | cons l t =>
    obtain ⟨hlb, hrows⟩ := hall l (List.mem_cons_self l t)
    cases l with
    | nil => simp at hlb; omega
    | cons r t' =>
      exact hrows r (List.mem_cons_self r t')

theorem rectQ_shape1 {k b q : Nat} {m : Mem} (h : rectQ k b q m)
    (hk : 1 ≤ k) : shape1 m = b := by
  obtain ⟨hlen, hall⟩ := h
  cases m with
  | nil => simp at hlen; omega
  | cons l t => exact (hall l (List.mem_cons_self l t)).1

theorem slicemap_eq_takemap (hs : Mem) (n : Nat)
    (h : 1 ≤ n ∨ ∀ l ∈ hs, ∀ r ∈ l, r.length = 0) :
    (hs.map fun l => l.map fun r => slicePyLast n r)
      = hs.map fun l => l.map fun r => takeLast n r := by
  apply List.map_congr_left; intro l hl
  apply List.map_congr_left; intro r hr
  rcases h with h | h
  · exact slicePyLast_of_pos n h r
  · have hr0 : r = [] := List.eq_nil_of_length_eq_zero (h l hl r hr)
    subst hr0
    cases n with
    | zero => rfl
    | succ j => exact slicePyLast_of_pos _ (by omega) []

theorem slicePyLast_length_bound (n q : Nat) (r : List α) (hq : r.length = q)
    (hn : n ≤ q) (h : 1 ≤ n ∨ q = 0) : (slicePyLast n r).length = n := by
  rcases h with h | h
  · rw [slicePyLast_length n r h]; omega
  · have hn0 : n = 0 := by omega
    subst hn0
    unfold slicePyLast
    rw [if_pos rfl]
    omega

theorem update_mems_rect_step (k b L p : Nat) (hs : Mem) (m : Option Mem)
    (hk : 1 ≤ k) (hb : 1 ≤ b) (hL : 1 ≤ L)
    (hhs : rectQ k b (shape2 hs) hs)
    (hm : (m = none ∧ p = 0) ∨ ∃ mm, m = some mm ∧ rectQ k b p mm) :
    ∃ m', update_mems (some hs) m L = some m'
      ∧ rectQ k b (min L (p + shape2 hs)) m' := by
  rcases hm with ⟨hmn, hp⟩ | ⟨mm, hmm, hr⟩
  · subst hmn; subst hp
    simp only [update_mems]
    have hle : min L (0 + shape2 hs) ≤ shape2 hs := by omega
    rw [if_pos hle]
    refine ⟨_, rfl, ?_, ?_⟩
    · simp [hhs.1]
    · intro l' hl'
      rcases List.mem_map.mp hl' with ⟨l, hl, rfl⟩
      refine ⟨by simp [(hhs.2 l hl).1], ?_⟩
      intro r' hr'
      rcases List.mem_map.mp hr' with ⟨r, hr, rfl⟩
      exact slicePyLast_length_bound _ _ r ((hhs.2 l hl).2 r hr) (by omega) (by omega)
  · subst hmm
    have hp2 : shape2 mm = p := rectQ_shape2 hr hk hb
    subst hp2
    simp only [update_mems]
    by_cases hle : min L (shape2 mm + shape2 hs) ≤ shape2 hs
    · rw [if_pos hle]
      refine ⟨_, rfl, ?_, ?_⟩
      · simp [hhs.1]
      · intro l' hl'
        rcases List.mem_map.mp hl' with ⟨l, hl, rfl⟩
        refine ⟨by simp [(hhs.2 l hl).1], ?_⟩
        intro r' hr'
        rcases List.mem_map.mp hr' with ⟨r, hr, rfl⟩
        exact slicePyLast_length_bound _ _ r ((hhs.2 l hl).2 r hr) (by omega) (by omega)
    · rw [if_neg hle]
      have hb1 : shape1 mm = b := rectQ_shape1 hr hk
      have hb2 : shape1 hs = b := rectQ_shape1 hhs hk
      rw [if_neg (by omega : ¬ shape1 mm < shape1 hs)]
      refine ⟨_, rfl, ?_, ?_⟩
      · rw [cat2, List.length_zipWith, List.length_map, hr.1, hhs.1]; omega
      · intro l' hl'
        rcases mem_zipWith_ex hl' with ⟨la, hla, lb, hlb, rfl⟩
        rcases List.mem_map.mp hla with ⟨l0, hl0, rfl⟩
        constructor
        · rw [List.length_zipWith, List.length_map, (hr.2 l0 hl0).1, (hhs.2 lb hlb).1]
          omega
        · intro r' hr'
          rcases mem_zipWith_ex hr' with ⟨ra, hra, rb, hrb, rfl⟩
          rcases List.mem_map.mp hra with ⟨r0, hr0, rfl⟩
          rw [List.length_append,
            slicePyLast_length _ _ (by omega : 1 ≤ min L (shape2 mm + shape2 hs) - shape2 hs),
            (hr.2 l0 hl0).2 r0 hr0, (hhs.2 lb hlb).2 rb hrb]
          omega

theorem mergeAll_fold_inv (k b L : Nat) (hk : 1 ≤ k) (hb : 1 ≤ b) (hL : 1 ≤ L) :
    ∀ (chunks : List Mem) (m : Option Mem) (p : Nat),
      (∀ c ∈ chunks, rectQ k b (shape2 c) c) →
      ((m = none ∧ p = 0) ∨ ∃ mm, m = some mm ∧ rectQ k b p mm) →
      p ≤ L →
      ∃ p', ((chunks.foldl (fun m c => update_mems (some c) m L) m = none ∧ p' = 0)
              ∨ ∃ mm, chunks.foldl (fun m c => update_mems (some c) m L) m = some mm
                  ∧ rectQ k b p' mm)
        ∧ p' ≤ L
        ∧ (p + (chunks.map shape2).sum < L → p' = p + (chunks.map shape2).sum) := by
  intro chunks
  induction chunks with
  | nil =>
    intro m p hwf hm hpL
    exact ⟨p, hm, hpL, by simp⟩
  | cons c cs ih =>
    intro m p hwf hm hpL
    obtain ⟨m', hm', hrect'⟩ := update_mems_rect_step k b L p c m hk hb hL
      (hwf c (List.mem_cons_self c cs)) hm
    obtain ⟨p', hinv, hp'L, hsum⟩ := ih (some m') (min L (p + shape2 c))
      (fun d hd => hwf d (List.mem_cons_of_mem c hd))
      (Or.inr ⟨m', rfl, hrect'⟩) (by omega)
    refine ⟨p', ?_, hp'L, ?_⟩
    · rw [List.foldl_cons, hm']
      exact hinv
    · intro hlt
      rw [List.map_cons, List.sum_cons] at hlt
      have h1 : min L (p + shape2 c) = p + shape2 c := by omega
      have := hsum (by omega)
      rw [List.map_cons, List.sum_cons]
      omega

/-- C1 (amended): the memory cache updater called with an absent set of new
layer activations returns `none` (no memory) for every previous memory and
every max length; this coincides with the previous memory only when the
previous memory is itself absent. -/
theorem update_mems_absent_returns_none (mems : Option Mem) (L : Nat) :
    update_mems none mems L = none := rfl

/-- C1 counterexample: with a non-absent previous memory, calling the
updater with absent activations does not return the previous memory
unchanged — it returns `none` (`return None` at line 35 of
`autoregressive_sampling.py`), so the claimed identity case fails. -/
theorem update_mems_absent_not_identity :
    ¬ (update_mems none (some [[[[7]]]]) 5 = some [[[[7]]]]) := by decide

/-- C3 (amended): for every rectangular non-empty-or-empty chunk and a
*positive* max length `L`, the merge equals the specification's
description: `new_length = min(L, p + q)`; when `new_length ≤ q` the most
recent `new_length` columns of the chunk, otherwise the most recent
`new_length − q` columns of previous memory (batch-expanded when needed)
followed by the whole chunk.  For `L = 0` the claim fails because the
Python slice `[:, :, -0:]` keeps the entire chunk. -/
theorem update_mems_matches_spec_merge (hs : Mem) (mems : Option Mem) (L : Nat)
    (hL : 1 ≤ L) (hrect : ∀ l ∈ hs, ∀ r ∈ l, r.length = shape2 hs) :
    update_mems (some hs) mems L = some (update_mems_claim hs mems L) := by
  cases mems with
  | none =>
    simp only [update_mems, update_mems_claim]
    have hle : min L (0 + shape2 hs) ≤ shape2 hs := by omega
    rw [if_pos hle, if_pos hle]
    congr 1
    apply slicemap_eq_takemap
    by_cases h0 : min L (0 + shape2 hs) = 0
    · right; intro l hl r hr
      have := hrect l hl r hr
      omega
    · left; omega
  | some m =>
    simp only [update_mems, update_mems_claim]
    by_cases hle : min L (shape2 m + shape2 hs) ≤ shape2 hs
    · rw [if_pos hle, if_pos hle]
      congr 1
      apply slicemap_eq_takemap
      by_cases h0 : min L (shape2 m + shape2 hs) = 0
      · right; intro l hl r hr
        have := hrect l hl r hr
        omega
      · left; omega
    · rw [if_neg hle, if_neg hle]
      congr 1
      have hfe : slicePyLast (min L (shape2 m + shape2 hs) - shape2 hs)
          = (takeLast (min L (shape2 m + shape2 hs) - shape2 hs) : Row → Row) :=
        funext (slicePyLast_of_pos _ (by omega))
      rw [hfe]

/-- C3 witness: the claim's own scenario — previous memory length `p = 5`,
max length `L = 8`, new chunk length `q = 4` — satisfies the amended
hypotheses, the merge matches the specification's description, and the
result is previous memory's last 4 columns followed by the 4 new columns. -/
theorem update_mems_matches_spec_merge_witness :
    (1 ≤ 8)
    ∧ (∀ l ∈ ([[[[20], [21], [22], [23]]]] : Mem), ∀ r ∈ l,
        r.length = shape2 [[[[20], [21], [22], [23]]]])
    ∧ update_mems (some [[[[20], [21], [22], [23]]]])
        (some [[[[10], [11], [12], [13], [14]]]]) 8
        = some (update_mems_claim [[[[20], [21], [22], [23]]]]
            (some [[[[10], [11], [12], [13], [14]]]]) 8)
    ∧ update_mems (some [[[[20], [21], [22], [23]]]])
        (some [[[[10], [11], [12], [13], [14]]]]) 8
        = some [[[[11], [12], [13], [14], [20], [21], [22], [23]]]] :=
  ⟨by decide, by decide,
   update_mems_matches_spec_merge _ _ _ (by decide) (by decide), by decide⟩

/-- C3 counterexample: at max length `L = 0` with a single one-column chunk
the code keeps the whole chunk (Python `-0:` slicing), while the claim
demands the most recent `new_length = 0` columns, i.e. an empty result. -/
theorem update_mems_zero_budget_keeps_chunk :
    ¬ (update_mems (some [[[[1]]]]) none 0
        = some (update_mems_claim [[[[1]]]] none 0)) := by decide

/-- C4 (amended): for a *positive* configured maximum `L` and rectangular
chunks, the accumulated memory length after any sequence of merge
operations never exceeds `L`; and whenever the cumulative supplied length
stays below `L`, the merged memory length equals exactly the cumulative
number of forwarded columns.  For `L = 0` the bound fails because the
Python slice `[:, :, -0:]` keeps the entire chunk. -/
theorem memory_window_invariant (k b L : Nat) (chunks : List Mem)
    (hk : 1 ≤ k) (hb : 1 ≤ b) (hL : 1 ≤ L)
    (hwf : ∀ c ∈ chunks, rectQ k b (shape2 c) c) :
    memLen (mergeAll L chunks) ≤ L
      ∧ ((chunks.map shape2).sum < L →
          memLen (mergeAll L chunks) = (chunks.map shape2).sum) := by
  obtain ⟨p', hinv, hp'L, hsum⟩ :=
    mergeAll_fold_inv k b L hk hb hL chunks none 0 hwf (Or.inl ⟨rfl, rfl⟩)
      (by omega)
  have hlen : memLen (mergeAll L chunks) = p' := by
    rcases hinv with ⟨hnone, hp0⟩ | ⟨mm, hsome, hrect⟩
    · rw [mergeAll, hnone, memLen, hp0]
    · rw [mergeAll, hsome, memLen]
      exact rectQ_shape2 hrect hk hb
  constructor
  · omega
  · intro hlt
    rw [hlen]
    have := hsum (by omega)
    omega

/-- C4 witness: two rectangular single-layer chunks of lengths 2 and 1 with
bound `L = 4`: the merged length is their sum 3, which stays within the
bound. -/
theorem memory_window_invariant_witness :
    (1 ≤ 1) ∧ (1 ≤ 4)
    ∧ (∀ c ∈ ([[[[[1], [2]]]], [[[[3]]]]] : List Mem), rectQ 1 1 (shape2 c) c)
    ∧ memLen (mergeAll 4 [[[[[1], [2]]]], [[[[3]]]]]) ≤ 4
    ∧ (([[[[[1], [2]]]], [[[[3]]]]] : List Mem).map shape2).sum < 4
    ∧ memLen (mergeAll 4 [[[[[1], [2]]]], [[[[3]]]]])
        = (([[[[[1], [2]]]], [[[[3]]]]] : List Mem).map shape2).sum :=
  ⟨by decide, by decide, by decide,
   (memory_window_invariant 1 1 4 _ (by decide) (by decide) (by decide)
     (by decide)).1,
   by decide,
   (memory_window_invariant 1 1 4 _ (by decide) (by decide) (by decide)
     (by decide)).2 (by decide)⟩

/-- C4 counterexample: with configured maximum `L = 0`, a single merge of a
one-column chunk yields memory length 1 > 0 (Python `-0:` slicing keeps
the whole chunk), violating the claimed bound. -/
theorem memory_window_violated_at_zero :
    ¬ (memLen (mergeAll 0 [[[[[1]]]]]) ≤ 0) := by decide

/-! ### GLM mask and position-id builder (`examples/glm/inference_glm.py`) -/

/-- `torch.ones((n, n))` followed by in-place `tril_()`: entry `(i, j)` is
`1` iff `j ≤ i`, else `0`. -/
def onesTril (n : Nat) : List (List Nat) :=
  (List.range n).map fun i => (List.range n).map fun j => if j ≤ i then 1 else 0

/-- `attention_mask[..., :context_length] = 1`: overwrite the first
`context_length` columns of every row with `1`. -/
def contextUnmask (context_length : Nat) (m : List (List Nat)) : List (List Nat) :=
  m.map fun row =>
    (List.range row.length).map fun j =>
      if j < context_length then 1 else row.getD j 0

/-- The GLM attention mask before the `unsqueeze_(1)` batch axes: causal
lower-triangular with the context block fully unmasked
(`inference_glm.py` lines 36-39). -/
def glm_attention_mask (n context_length : Nat) : List (List Nat) :=
  contextUnmask context_length (onesTril n)

/-- The GLM two-row position ids (`inference_glm.py` lines 41-44):
`torch.zeros(2, n)`; `arange(0, context_length)` into row 0's context
block, `mask_position` on its generated block; `arange(1, n −
context_length + 1)` into row 1's generated block.  Faithful for
`context_length ≤ n` (torch raises when an `arange` output view cannot
hold the result). -/
def glm_position_ids (n context_length mask_position : Nat) : List (List Nat) :=
  [List.range context_length ++ List.replicate (n - context_length) mask_position,
   List.replicate context_length 0
     ++ (List.range (n - context_length)).map (fun j => j + 1)]

/-- `get_masks_and_position_ids_glm(seq, mask_position, context_length)`
(`inference_glm.py` lines 33-47): tokens unsqueezed to a batch of one, the
mask with its two unsqueezed leading axes, the position ids with their
unsqueezed batch axis. -/
def get_masks_and_position_ids_glm (seq : List Int)
    (mask_position context_length : Nat) :
    Toks × List (List (List (List Nat))) × List (List (List Nat)) :=
  ([seq],
   [[glm_attention_mask seq.length context_length]],
   [glm_position_ids seq.length context_length mask_position])

theorem getD_range_map (f : Nat → α) (n i : Nat) (d : α) (h : i < n) :
    ((List.range n).map f).getD i d = f i := by
  rw [List.getD_eq_getElem _ _ (by simp [h]), List.getElem_map, List.getElem_range]

theorem getD_map_lt (f : α → β) (l : List α) (i : Nat) (d : α) (d' : β)
    (h : i < l.length) : (l.map f).getD i d' = f (l.getD i d) := by
  rw [List.getD_eq_getElem _ _ (by simp [h]), List.getElem_map,
    List.getD_eq_getElem _ _ h]

theorem getD_append_lt (l₁ l₂ : List α) (i : Nat) (d : α) (h : i < l₁.length) :
    (l₁ ++ l₂).getD i d = l₁.getD i d := by
  rw [List.getD_eq_getElem _ _ (by simp only [List.length_append]; omega),
    List.getElem_append_left h, List.getD_eq_getElem _ _ h]

theorem getD_append_ge (l₁ l₂ : List α) (i : Nat) (d : α) (h : l₁.length ≤ i) :
    (l₁ ++ l₂).getD i d = l₂.getD (i - l₁.length) d := by
  by_cases h2 : i < l₁.length + l₂.length
  · rw [List.getD_eq_getElem _ _ (by simp only [List.length_append]; omega),
      List.getElem_append_right h, List.getD_eq_getElem _ _ (by omega)]
  · rw [List.getD_eq_default _ _ (by simp only [List.length_append]; omega),
      List.getD_eq_default _ _ (by omega)]

theorem getD_take_eq (l : List α) (C j : Nat) (d : α) (h : j < C) :
    (l.take C).getD j d = l.getD j d := by
  by_cases hj : j < l.length
  · rw [List.getD_eq_getElem _ _ (by rw [List.length_take]; omega),
      List.getElem_take, List.getD_eq_getElem _ _ hj]
  · rw [List.getD_eq_default _ _ (by rw [List.length_take]; omega),
      List.getD_eq_default _ _ (by omega)]

/-- C8: for every sequence, mask position, and context length `C` within
the sequence, the masked-infill builder's attention mask is causal except
that the first `C` columns are fully visible to every row; position-id row
0 is `0..C−1` on the context block and constantly the mask position on the
generated block; row 1 is `0` on the context block and counts `1, 2, …` on
the generated block. -/
theorem glm_masks_and_position_ids_correct (seq : List Int)
    (mask_position C : Nat) (hC : C ≤ seq.length) :
    (∀ i j, i < seq.length → j < seq.length →
      ((glm_attention_mask seq.length C).getD i []).getD j 0
        = if j ≤ i ∨ j < C then 1 else 0)
    ∧ (∀ i, i < seq.length →
        ((glm_position_ids seq.length C mask_position).getD 0 []).getD i 0
          = if i < C then i else mask_position)
    ∧ (∀ i, i < seq.length →
        ((glm_position_ids seq.length C mask_position).getD 1 []).getD i 0
          = if i < C then 0 else i - C + 1) := by
  refine ⟨?_, ?_, ?_⟩
  · intro i j hi hj
    rw [glm_attention_mask, contextUnmask]
    rw [getD_map_lt _ _ i [] [] (by simpa [onesTril] using hi)]
    rw [onesTril, getD_range_map _ _ i [] hi]
    rw [List.length_map, List.length_range]
    rw [getD_range_map _ _ j 0 hj]
    rw [getD_range_map _ _ j 0 hj]
    split_ifs <;> omega
  · intro i hi
    show (List.range C ++ List.replicate (seq.length - C) mask_position).getD i 0
      = if i < C then i else mask_position
    by_cases h : i < C
    · rw [getD_append_lt _ _ i 0 (by simpa using h), if_pos h,
        List.getD_eq_getElem _ _ (by simpa using h), List.getElem_range]
    · rw [getD_append_ge _ _ i 0 (by simp; omega), if_neg h, List.length_range,
        List.getD_eq_getElem _ _ (by simp; omega), List.getElem_replicate]
  · intro i hi
    show (List.replicate C 0
        ++ (List.range (seq.length - C)).map (fun j => j + 1)).getD i 0
      = if i < C then 0 else i - C + 1
    by_cases h : i < C
    · rw [getD_append_lt _ _ i 0 (by simpa using h), if_pos h,
        List.getD_eq_getElem _ _ (by simpa using h), List.getElem_replicate]
    · rw [getD_append_ge _ _ i 0 (by simp; omega), if_neg h,
        List.length_replicate, getD_range_map _ _ (i - C) 0 (by omega)]

/-- C8 witness: the claim's scenario `[1, 99, 2]` with mask token at index
1 and context length 3 — the characterization holds, and the mask row for
index 1 allows attending to indices 0 *and* 2 (both in the context
block). -/
theorem glm_masks_and_position_ids_witness :
    (3 ≤ ([1, 99, 2] : List Int).length)
    ∧ (∀ i j, i < ([1, 99, 2] : List Int).length →
        j < ([1, 99, 2] : List Int).length →
        ((glm_attention_mask ([1, 99, 2] : List Int).length 3).getD i []).getD j 0
          = if j ≤ i ∨ j < 3 then 1 else 0)
    ∧ ((glm_attention_mask 3 3).getD 1 []).getD 0 0 = 1
    ∧ ((glm_attention_mask 3 3).getD 1 []).getD 2 0 = 1 :=
  ⟨by decide,
   (glm_masks_and_position_ids_correct [1, 99, 2] 1 3 (by decide)).1,
   by decide, by decide⟩

/-! ### Perplexity scorer sentinel handling
(`autoregressive_sampling.py` lines 236-240) -/

/-- The sentinel fix-up at the start of `evaluate_perplexity`:
`pad_pos = tokens < 0; if pad_pos.any(): tokens[pad_pos] = 0;
loss_mask[pad_pos] = 0`.  The writes go through views
(`unsqueeze`/trivial `expand`) of the caller's 1-D buffers, so this
function computes the contents of the *caller's* `tokens` and `loss_mask`
after the call (state-passing model of the in-place mutation).  The rest
of `evaluate_perplexity` (softmax scoring) operates on floats and is out
of the modelled scope; no claim touches it. -/
def evaluate_perplexity_padfix (tokens loss_mask : List Int) :
    List Int × List Int :=
  if tokens.any (fun t => decide (t < 0)) then
    (tokens.map fun t => if t < 0 then 0 else t,
     List.zipWith (fun t l => if t < 0 then 0 else l) tokens loss_mask)
  else (tokens, loss_mask)

theorem map_padzero_ne {tokens : List Int} (i : Nat) (h : i < tokens.length)
    (hneg : tokens.getD i 0 < 0) :
    tokens.map (fun t => if t < 0 then 0 else t) ≠ tokens := by
  intro heq
  have h2 := congrArg (fun l => List.getD l i 0) heq
  simp only at h2
  rw [getD_map_lt _ _ i 0 0 h, if_pos hneg] at h2
  omega

/-- C10 (amended): if some entry of `tokens` is negative, the scorer's
sentinel fix-up leaves the caller's `tokens` changed (0 written over each
negative entry), and leaves the caller's loss mask changed exactly when
the mask was nonzero at some negative-token position; with no negative
entry, both buffers are left untouched. -/
theorem evaluate_perplexity_padfix_effect (tokens loss_mask : List Int)
    (hlen : loss_mask.length = tokens.length) :
    (tokens.any (fun t => decide (t < 0)) = true →
      (evaluate_perplexity_padfix tokens loss_mask).1 ≠ tokens)
    ∧ (tokens.any (fun t => decide (t < 0)) = false →
      evaluate_perplexity_padfix tokens loss_mask = (tokens, loss_mask))
    ∧ ((List.zipWith (fun t l => decide (t < 0) && decide (l ≠ 0))
          tokens loss_mask).any id = true →
      (evaluate_perplexity_padfix tokens loss_mask).2 ≠ loss_mask)
    ∧ ((List.zipWith (fun t l => decide (t < 0) && decide (l ≠ 0))
          tokens loss_mask).any id = false →
      (evaluate_perplexity_padfix tokens loss_mask).2 = loss_mask) := by
  refine ⟨?_, ?_, ?_, ?_⟩
  · intro hany
    obtain ⟨t, ht, hlt⟩ := List.any_eq_true.mp hany
    obtain ⟨i, hilen, hit⟩ := List.mem_iff_getElem.mp ht
    have hgd : tokens.getD i 0 < 0 := by
      rw [List.getD_eq_getElem _ _ hilen, hit]
      exact of_decide_eq_true hlt
    rw [evaluate_perplexity_padfix, if_pos hany]
    exact map_padzero_ne i hilen hgd
  · intro hany
    rw [evaluate_perplexity_padfix, if_neg (by simp [hany])]
  · intro hany heq
    obtain ⟨c, hc, hid⟩ := List.any_eq_true.mp hany
    obtain ⟨i, hilen, hic⟩ := List.mem_iff_getElem.mp hc
    rw [List.getElem_zipWith] at hic
    have hi1 : i < tokens.length := by
      rw [List.length_zipWith] at hilen; omega
    have hi2 : i < loss_mask.length := by
      rw [List.length_zipWith] at hilen; omega
    have hneg : tokens[i] < 0 ∧ loss_mask[i] ≠ 0 := by
      rw [← hic] at hid
      simp only [id, Bool.and_eq_true, decide_eq_true_eq] at hid
      exact hid
    have hany2 : tokens.any (fun t => decide (t < 0)) = true :=
      List.any_eq_true.mpr ⟨tokens[i], List.getElem_mem hi1, by
        simp [hneg.1]⟩
    rw [evaluate_perplexity_padfix, if_pos hany2] at heq
    have h2 := congrArg (fun l => List.getD l i 0) heq
    simp only at h2
    rw [List.getD_eq_getElem _ _ (by rw [List.length_zipWith]; omega),
      List.getElem_zipWith, if_pos hneg.1,
      List.getD_eq_getElem _ _ hi2] at h2
    exact hneg.2 h2.symm
  · intro hany
    by_cases hneg : tokens.any (fun t => decide (t < 0)) = true
    · rw [evaluate_perplexity_padfix, if_pos hneg]
      show List.zipWith (fun t l => if t < 0 then 0 else l) tokens loss_mask
        = loss_mask
      apply List.ext_getElem
      · rw [List.length_zipWith]; omega
      · intro i h1 h2
        rw [List.getElem_zipWith]
        have hi1 : i < tokens.length := by rw [List.length_zipWith] at h1; omega
        have hz : i < (List.zipWith (fun t l => decide (t < 0) && decide (l ≠ 0))
            tokens loss_mask).length := by rw [List.length_zipWith]; omega
        have hmem := List.any_eq_false.mp hany _ (List.getElem_mem hz)
        rw [List.getElem_zipWith] at hmem
        simp only [id_eq, Bool.not_eq_true, Bool.and_eq_false_iff,
          decide_eq_false_iff_not, not_lt, Decidable.not_not] at hmem
        rcases hmem with hmem | hmem
        · rw [if_neg (by omega)]
        · split_ifs <;> simp [hmem]
    · rw [evaluate_perplexity_padfix, if_neg (by simpa using hneg)]

/-- C10 witness: `tokens = [-2, 3]`, `loss_mask = [1, 1]` — there is a
negative entry with a nonzero mask bit, so both the caller's tokens and
the caller's loss mask come back changed. -/
theorem evaluate_perplexity_padfix_effect_witness :
    (([1, 1] : List Int).length = ([(-2 : Int), 3] : List Int).length)
    ∧ (evaluate_perplexity_padfix [-2, 3] [1, 1]).1 ≠ [-2, 3]
    ∧ (evaluate_perplexity_padfix [-2, 3] [1, 1]).2 ≠ [1, 1] :=
  ⟨by decide,
   (evaluate_perplexity_padfix_effect [-2, 3] [1, 1] (by decide)).1 (by decide),
   (evaluate_perplexity_padfix_effect [-2, 3] [1, 1] (by decide)).2.2.1
     (by decide)⟩

/-- C10 counterexample: `tokens = [-1]`, `loss_mask = [0]` — the token
buffer has a negative entry, yet after the call the caller's loss mask is
still `[0]`, unchanged; the claim wrongly asserts both buffers differ from
what was passed in. -/
theorem evaluate_perplexity_mask_unchanged_example :
    (([(-1 : Int)].any fun t => decide (t < 0)) = true)
    ∧ (evaluate_perplexity_padfix [-1] [0]).2 = [0] := by decide

/-! ### The filling loops (`autoregressive_sampling.py` lines 52-225)

The model is opaque: a function from the forwarded token slice, position
and mask slices, current memory, and cross-memory to logits plus per-layer
outputs.  `log_attention_weights` (default `None`) and extra keyword
arguments are invariant pass-throughs absorbed into the model closure
(both variants slice and forward them identically).  The dtype cast of the
attention mask (`type_as`) is value-preserving in this integer model. -/

/-- Position ids as seen by the loop's `[..., index:counter+1]` slices
(leading unsqueezed axes dropped; the slice acts on the last axis). -/
abbrev Pos := List (List Nat)

/-- The 4-axis attention mask `[1, 1, len, len]`. -/
abbrev Mask := List (List (List (List Nat)))

/-- Opaque per-layer cross-attention cache payload. -/
abbrev CrossT := List Int

/-- `mems_cross`: one cross-attention cache entry per layer. -/
abbrev CrossMem := List CrossT

/-- One element of `output_per_layers`: a dictionary holding `mem_kv` and
optionally `mem_cross`. -/
structure PerLayerOut where
  mem_kv : LayerT
  mem_cross : Option CrossT

/-- What a model invocation returns: `logits` of shape
`[batch, forwarded, vocab]` and the per-layer outputs. -/
structure ModelOut where
  logits : List (List (List Int))
  per_layer : List PerLayerOut

/-- The opaque model: `model(input_ids, position_ids, attention_mask,
mems, mems_cross, ...)`.  The streaming variant never passes `mems_cross`;
that is the model's default `None`, i.e. `none` here. -/
structure Model where
  call : Toks → Pos → Mask → Option Mem → Option CrossMem → ModelOut

/-- The decoding strategy contract: an internal state `σ` (the Python
strategy object mutates itself), the optional declared beam width
(`hasattr(strategy, 'num_beams')`), `forward`, the `is_done` flag read
after each forward, and `finalize`. -/
structure Strategy (σ : Type) where
  num_beams : Option Nat
  forward : σ → Logits → Toks → Option Mem → σ × Toks × Option Mem
  is_done : σ → Bool
  finalize : σ → Toks → Option Mem → Toks × Option Mem

/-- `t.expand(n, -1)`: broadcast a singleton batch of rows to `n` copies;
torch leaves a matching batch unchanged and raises otherwise (never
triggered by the loop's well-formed uses). -/
def expandRows (n : Nat) (t : List (List Int)) : List (List Int) :=
  if t.length = 1 then List.replicate n (t.headD []) else t

/-- Lines 71-73 / 164-166: `if hasattr(strategy, 'num_beams') and
batch_size < strategy.num_beams: batch_size = strategy.num_beams` plus the
diagnostic notice (`print_rank0`), returned as the second component. -/
def adjust_batch_size (num_beams : Option Nat) (batch_size : Nat) :
    Nat × Bool :=
  match num_beams with
  | some nb => if batch_size < nb then (nb, true) else (batch_size, false)
  | none => (batch_size, false)

/-- The body of the context-length scan, walking the sequence from
position `i`: stop at the first negative entry; running off the end is
the `IndexError` of `seq[context_length]`, i.e. `none`. -/
def scanContextGo (i : Nat) : List Int → Option Nat
  | [] => none
  | x :: xs => if 0 ≤ x then scanContextGo (i + 1) xs else some i

/-- The context-length scan (lines 76-78 / 169-171):
`context_length = 0; while seq[context_length] >= 0: context_length += 1`.
Indexing a torch tensor out of range raises `IndexError`; that outcome is
`none`.  A sequence whose entries are all non-negative therefore makes
the scan run past the end and fail. -/
def scanContext (seq : List Int) : Option Nat := scanContextGo 0 seq

/-- `position_ids[..., a:b]`. -/
def slicePos (a b : Nat) (p : Pos) : Pos := p.map fun r => (r.take b).drop a

/-- `attention_mask[..., a:b, :c]`. -/
def sliceMask (a b c : Nat) (m : Mask) : Mask :=
  m.map fun x => x.map fun rows => ((rows.take b).drop a).map fun r => r.take c

/-- `get_masks_and_position_ids_default(seq)` (lines 18-27): batch-of-one
tokens, strictly causal mask, increasing position ids. -/
def get_masks_and_position_ids_default (seq : List Int) : Toks × Mask × Pos :=
  ([seq], [[onesTril seq.length]], [List.range seq.length])

/-- Loop state of the blocking variant.  `calls` (positions generated by a
model invocation) and `trace` (the `(tokens, last-step logits, mems)`
triple right after each strategy `forward`, i.e. after step (f)) are ghost
instrumentation; the remaining fields are the Python locals. -/
structure BlockSt (σ : Type) where
  tokens : Toks
  mems : Option Mem
  mems_cross : Option CrossMem
  counter : Nat
  index : Nat
  sstate : σ
  done : Bool
  calls : List Nat
  trace : List (Toks × Logits × Option Mem)

/-- Lines 118-119: `if len(output_per_layers) > 0 and 'mem_cross' in
output_per_layers[0]: mems_cross = [mem['mem_cross'] for mem in
output_per_layers]` — otherwise the old cross-memory is kept. -/
def updateCross (out : ModelOut) (old : Option CrossMem) : Option CrossMem :=
  match out.per_layer.head? with
  | some o =>
    if o.mem_cross.isSome
    then some (out.per_layer.map fun p => p.mem_cross.getD [])
    else old
  | none => old

/-- One iteration of the blocking loop body (lines 89-129). -/
def blockStep (model : Model) (strat : Strategy σ) (seq : List Int)
    (bs L : Nat) (pos : Pos) (msk : Mask) (s : BlockSt σ) : BlockSt σ :=
  let nxt := seq.getD (s.counter + 1) 0
  if 0 ≤ nxt then
    { s with tokens := s.tokens.map fun row => row ++ [nxt],
             counter := s.counter + 1 }
  else
    let out := model.call (s.tokens.map fun row => row.drop s.index)
      (slicePos s.index (s.counter + 1) pos)
      (sliceMask s.index (s.counter + 1) (s.counter + 1) msk)
      s.mems s.mems_cross
    let mems_cross := updateCross out s.mems_cross
    let mems := update_mems (some (out.per_layer.map fun o => o.mem_kv)) s.mems L
    let logits := expandRows bs (out.logits.map fun r => r.getLastD [])
    let tokens := expandRows bs s.tokens
    let fw := strat.forward s.sstate logits tokens mems
    { tokens := fw.2.1, mems := fw.2.2, mems_cross := mems_cross,
      counter := s.counter + 1, index := s.counter + 1, sstate := fw.1,
      done := strat.is_done fw.1, calls := s.calls ++ [s.counter + 1],
      trace := s.trace ++ [(fw.2.1, logits, fw.2.2)] }

/-- The blocking loop `while counter < len(seq) - 1` with the post-forward
`break` on `strategy.is_done`, driven by fuel (the counter strictly
increases, so `len(seq)` steps of fuel suffice). -/
def blockLoop (model : Model) (strat : Strategy σ) (seq : List Int)
    (bs L : Nat) (pos : Pos) (msk : Mask) : Nat → BlockSt σ → BlockSt σ
  | 0, s => s
  | fuel + 1, s =>
    if s.counter + 1 < seq.length ∧ s.done = false then
      blockLoop model strat seq bs L pos msk fuel
        (blockStep model strat seq bs L pos msk s)
    else s

/-- Line 86 / 179: `index = 0 if mems is None else mems.shape[2]` — the
next forward starting index, also the length of the supplied cache. -/
def initIndex : Option Mem → Nat
  | none => 0
  | some m => shape2 m

/-- `filling_sequence` up to (and excluding) the final
`strategy.finalize`, returning the final loop state; `Except` models the
`IndexError` of the context scan and the `assert context_length > 0`. -/
def filling_sequence_state (model : Model) (strat : Strategy σ) (s0 : σ)
    (seq : List Int) (batch_size L : Nat)
    (gmpi : List Int → Toks × Mask × Pos) (mems : Option Mem) :
    Except String (BlockSt σ) :=
  let bs := (adjust_batch_size strat.num_beams batch_size).1
  match scanContext seq with
  | none => .error "index out of bounds"
  | some C =>
    if C = 0 then .error "assert context_length > 0"
    else
      let g := gmpi seq
      let init : BlockSt σ :=
        { tokens := g.1.map fun row => row.take C, mems := mems,
          mems_cross := none, counter := C - 1, index := initIndex mems,
          sstate := s0, done := false, calls := [], trace := [] }
      .ok (blockLoop model strat seq bs L g.2.2 g.2.1 seq.length init)

/-- `filling_sequence(model, seq, batch_size, strategy, max_memory_length,
get_masks_and_position_ids, mems)` (lines 52-130): the loop followed by
`strategy.finalize(tokens, mems)`. -/
def filling_sequence (model : Model) (strat : Strategy σ) (s0 : σ)
    (seq : List Int) (batch_size L : Nat)
    (gmpi : List Int → Toks × Mask × Pos) (mems : Option Mem) :
    Except String (Toks × Option Mem) :=
  (filling_sequence_state model strat s0 seq batch_size L gmpi mems).map
    fun fin => strat.finalize fin.sstate fin.tokens fin.mems

/-- Loop state of the streaming variant: as the blocking one but with no
`mems_cross` local; `yields` is the sequence of values the generator hands
the caller. -/
structure StreamSt (σ : Type) where
  tokens : Toks
  mems : Option Mem
  counter : Nat
  index : Nat
  sstate : σ
  done : Bool
  yields : List (Toks × Logits × Option Mem)

/-- One iteration of the streaming loop body (lines 181-223).  The model
is called without `mems_cross` (its default `None`) and no `mem_cross`
output is collected; the `yield` sits between the strategy forward and
the counter update, which touches no state read in between. -/
def streamStep (model : Model) (strat : Strategy σ) (seq : List Int)
    (bs L : Nat) (pos : Pos) (msk : Mask) (s : StreamSt σ) : StreamSt σ :=
  let nxt := seq.getD (s.counter + 1) 0
  if 0 ≤ nxt then
    { s with tokens := s.tokens.map fun row => row ++ [nxt],
             counter := s.counter + 1 }
  else
    let out := model.call (s.tokens.map fun row => row.drop s.index)
      (slicePos s.index (s.counter + 1) pos)
      (sliceMask s.index (s.counter + 1) (s.counter + 1) msk)
      s.mems none
    let mems := update_mems (some (out.per_layer.map fun o => o.mem_kv)) s.mems L
    let logits := expandRows bs (out.logits.map fun r => r.getLastD [])
    let tokens := expandRows bs s.tokens
    let fw := strat.forward s.sstate logits tokens mems
    { tokens := fw.2.1, mems := fw.2.2, counter := s.counter + 1,
      index := s.counter + 1, sstate := fw.1, done := strat.is_done fw.1,
      yields := s.yields ++ [(fw.2.1, logits, fw.2.2)] }

/-- The streaming loop, fuel-driven like the blocking one. -/
def streamLoop (model : Model) (strat : Strategy σ) (seq : List Int)
    (bs L : Nat) (pos : Pos) (msk : Mask) : Nat → StreamSt σ → StreamSt σ
  | 0, s => s
  | fuel + 1, s =>
    if s.counter + 1 < seq.length ∧ s.done = false then
      streamLoop model strat seq bs L pos msk fuel
        (streamStep model strat seq bs L pos msk s)
    else s

/-- `stream_filling_sequence` (lines 133-225): the generator's complete
run, returning the final state (whose `yields` are everything the caller
received; the mutated strategy object's final state is `sstate`).  The
generator itself finalizes nothing. -/
def stream_filling_sequence_state (model : Model) (strat : Strategy σ)
    (s0 : σ) (seq : List Int) (batch_size L : Nat)
    (gmpi : List Int → Toks × Mask × Pos) (mems : Option Mem) :
    Except String (StreamSt σ) :=
  let bs := (adjust_batch_size strat.num_beams batch_size).1
  match scanContext seq with
  | none => .error "index out of bounds"
  | some C =>
    if C = 0 then .error "assert context_length > 0"
    else
      let g := gmpi seq
      let init : StreamSt σ :=
        { tokens := g.1.map fun row => row.take C, mems := mems,
          counter := C - 1, index := initIndex mems,
          sstate := s0, done := false, yields := [] }
      .ok (streamLoop model strat seq bs L g.2.2 g.2.1 seq.length init)

/-- `(seq.dropWhile (0 ≤ ·)).all (· < 0)`: every entry after the first
pending position is itself pending (no provided tokens follow the first
generation slot). -/
def pendingClosed (seq : List Int) : Bool :=
  (seq.dropWhile fun x => decide (0 ≤ x)).all fun x => decide (x < 0)

/-- A minimal concrete model for witnesses: constant logits `[[4]]`, one
layer of single-column cache, no cross-attention cache. -/
def constModel : Model :=
  { call := fun _ _ _ _ _ =>
      { logits := [[[4]]],
        per_layer := [{ mem_kv := [[[0]]], mem_cross := none }] } }

/-- A minimal greedy-style strategy for witnesses: appends the first logit
entry to every row, never done, identity finalize. -/
def appendStrategy : Strategy Unit :=
  { num_beams := none,
    forward := fun s lg tk m =>
      (s, tk.map fun r => r ++ [(lg.headD []).headD 0], m),
    is_done := fun _ => false,
    finalize := fun _ tk m => (tk, m) }

/-- A model whose logits depend on the cross-memory input and which emits
a cross-attention cache entry: it distinguishes the two loop variants. -/
def crossModel : Model :=
  { call := fun _ _ _ _ oc =>
      { logits := [[[if oc.isSome then 1 else 0]]],
        per_layer := [{ mem_kv := [[[0]]], mem_cross := some [0] }] } }

theorem scanContextGo_none (l : List Int) (h : ∀ x ∈ l, 0 ≤ x) :
    ∀ i, scanContextGo i l = none := by
  induction l with
  | nil => intro i; rfl
  | cons x xs ih =>
    intro i
    unfold scanContextGo
    rw [if_pos (h x (List.mem_cons_self x xs))]
    exact ih (fun y hy => h y (List.mem_cons_of_mem x hy)) (i + 1)

theorem scanContextGo_some (l : List Int) :
    ∀ i C, scanContextGo i l = some C →
      i ≤ C ∧ C - i < l.length ∧ l.getD (C - i) 0 < 0 := by
  induction l with
  | nil =>
    intro i C hs
    simp [scanContextGo] at hs
  | cons x xs ih =>
    intro i C hs
    unfold scanContextGo at hs
    by_cases hge : 0 ≤ x
    · rw [if_pos hge] at hs
      obtain ⟨h1, h2, h3⟩ := ih (i + 1) C hs
      refine ⟨by omega, by simp; omega, ?_⟩
      have hCi : C - i = (C - (i + 1)) + 1 := by omega
      rw [hCi, List.getD_cons_succ]
      exact h3
    · rw [if_neg hge] at hs
      simp only [Option.some.injEq] at hs
      subst hs
      refine ⟨Nat.le_refl i, by simp, ?_⟩
      rw [Nat.sub_self, List.getD_cons_zero]
      omega

theorem scanContext_some (seq : List Int) (C : Nat)
    (hs : scanContext seq = some C) :
    C < seq.length ∧ seq.getD C 0 < 0 := by
  obtain ⟨h1, h2, h3⟩ := scanContextGo_some seq 0 C hs
  rw [Nat.sub_zero] at h2 h3
  exact ⟨h2, h3⟩

/-- C2 (amended): a rank-1 sequence whose entries are all provided
(non-negative) makes the context-length scan index one past the end of
the sequence: both filling variants raise an index error before the loop
is reached, so the model is never invoked, but the call does *not* return
normally. -/
theorem fully_provided_sequence_fails (model : Model) {σ : Type}
    (strat : Strategy σ) (s0 : σ) (seq : List Int) (bs L : Nat)
    (gmpi : List Int → Toks × Mask × Pos) (mems : Option Mem)
    (h : ∀ x ∈ seq, 0 ≤ x) :
    filling_sequence model strat s0 seq bs L gmpi mems
        = .error "index out of bounds"
    ∧ stream_filling_sequence_state model strat s0 seq bs L gmpi mems
        = .error "index out of bounds" := by
  have hscan : scanContext seq = none := scanContextGo_none seq h 0
  constructor
  · simp only [filling_sequence, filling_sequence_state, hscan]
    rfl
  · simp only [stream_filling_sequence_state, hscan]

/-- C2 witness: the fully provided sequence `[5, 7]` satisfies the
hypothesis and indeed produces the index error. -/
theorem fully_provided_sequence_fails_witness :
    (∀ x ∈ ([5, 7] : List Int), 0 ≤ x)
    ∧ filling_sequence constModel appendStrategy () [5, 7] 1 100
        get_masks_and_position_ids_default none
        = .error "index out of bounds" :=
  ⟨by decide,
   (fully_provided_sequence_fails constModel appendStrategy () [5, 7] 1 100
     get_masks_and_position_ids_default none (by decide)).1⟩

/-- C2 counterexample: on the fully provided sequence `[5, 7]` the filling
call does not return normally (the context scan raises), contradicting
the claim that such a call "returns normally". -/
theorem fully_provided_sequence_not_ok :
    (filling_sequence constModel appendStrategy () [5, 7] 1 100
      get_masks_and_position_ids_default none).isOk = false := by decide

/-- C9: a strategy declaring beam width `num_beams` with a smaller
`batch_size` has the batch size raised to `num_beams` with the diagnostic
notice emitted; with `batch_size ≥ num_beams` it is left unchanged and no
notice is emitted; and whether the filling call fails does not depend on
the batch size at all (the widening never causes a failure). -/
theorem batch_size_widening (nb bs : Nat) :
    (bs < nb → adjust_batch_size (some nb) bs = (nb, true))
    ∧ (nb ≤ bs → adjust_batch_size (some nb) bs = (bs, false))
    ∧ ∀ (σ : Type) (model : Model) (strat : Strategy σ) (s0 : σ)
        (seq : List Int) (L : Nat) (gmpi : List Int → Toks × Mask × Pos)
        (mems : Option Mem),
        (filling_sequence_state model strat s0 seq bs L gmpi mems).isOk
          = (filling_sequence_state model strat s0 seq nb L gmpi mems).isOk := by
  refine ⟨?_, ?_, ?_⟩
  · intro h
    show (if bs < nb then ((nb : Nat), true) else (bs, false)) = (nb, true)
    rw [if_pos h]
  · intro h
    show (if bs < nb then ((nb : Nat), true) else (bs, false)) = (bs, false)
    rw [if_neg (by omega : ¬ bs < nb)]
  · intro σ model strat s0 seq L gmpi mems
    cases h : scanContext seq with
    | none => simp only [filling_sequence_state, h]
    | some C =>
      by_cases hC : C = 0
      · simp only [filling_sequence_state, h, if_pos hC]
      · simp only [filling_sequence_state, h, if_neg hC]
        rfl

theorem all_drop_neg (seq : List Int) (C : Nat)
    (h : (seq.drop C).all (fun x => decide (x < 0)) = true)
    (j : Nat) (hCj : C ≤ j) (hj : j < seq.length) : seq.getD j 0 < 0 := by
  have hlen : j - C < (seq.drop C).length := by rw [List.length_drop]; omega
  have hx := List.all_eq_true.mp h ((seq.drop C)[j - C]) (List.getElem_mem hlen)
  rw [List.getElem_drop] at hx
  rw [List.getD_eq_getElem _ _ hj]
  have hidx : C + (j - C) = j := by omega
  simp only [hidx] at hx
  exact of_decide_eq_true hx

theorem blockStep_counter (model : Model) {σ : Type} (strat : Strategy σ)
    (seq : List Int) (bs L : Nat) (pos : Pos) (msk : Mask) (s : BlockSt σ) :
    (blockStep model strat seq bs L pos msk s).counter = s.counter + 1 := by
  unfold blockStep
  by_cases hp : 0 ≤ seq.getD (s.counter + 1) 0
  · rw [if_pos hp]
  · rw [if_neg hp]

theorem blockStep_done (model : Model) {σ : Type} (strat : Strategy σ)
    (seq : List Int) (bs L : Nat) (pos : Pos) (msk : Mask)
    (hdone : ∀ t, strat.is_done t = false) (s : BlockSt σ)
    (h : s.done = false) :
    (blockStep model strat seq bs L pos msk s).done = false := by
  unfold blockStep
  by_cases hp : 0 ≤ seq.getD (s.counter + 1) 0
  · rw [if_pos hp]
    exact h
  · rw [if_neg hp]
    exact hdone _

theorem blockStep_model_calls (model : Model) {σ : Type} (strat : Strategy σ)
    (seq : List Int) (bs L : Nat) (pos : Pos) (msk : Mask) (s : BlockSt σ)
    (h : ¬ 0 ≤ seq.getD (s.counter + 1) 0) :
    (blockStep model strat seq bs L pos msk s).calls
      = s.calls ++ [s.counter + 1] := by
  unfold blockStep
  rw [if_neg h]

theorem blockLoop_calls_count (model : Model) {σ : Type} (strat : Strategy σ)
    (seq : List Int) (bs L : Nat) (pos : Pos) (msk : Mask)
    (hdone : ∀ t, strat.is_done t = false) :
    ∀ (fuel : Nat) (s : BlockSt σ),
      (∀ j, s.counter + 1 ≤ j → j < seq.length → seq.getD j 0 < 0) →
      s.done = false →
      seq.length - 1 - s.counter ≤ fuel →
      (blockLoop model strat seq bs L pos msk fuel s).calls.length
        = s.calls.length + (seq.length - 1 - s.counter) := by
  intro fuel
  induction fuel with
  | zero =>
    intro s hall hd0 hfuel
    have h0 : seq.length - 1 - s.counter = 0 := by omega
    rw [h0, blockLoop]
    omega
  | succ fuel ih =>
    intro s hall hd0 hfuel
    rw [blockLoop]
    by_cases hguard : s.counter + 1 < seq.length ∧ s.done = false
    · rw [if_pos hguard]
      have hneg : ¬ 0 ≤ seq.getD (s.counter + 1) 0 := by
        have := hall (s.counter + 1) (Nat.le_refl _) hguard.1
        omega
      have hc := blockStep_counter model strat seq bs L pos msk s
      have hcalls := blockStep_model_calls model strat seq bs L pos msk s hneg
      have hd := blockStep_done model strat seq bs L pos msk hdone s hd0
      have hstep := ih (blockStep model strat seq bs L pos msk s)
        (fun j hj1 hj2 => hall j (by rw [hc] at hj1; omega) hj2)
        hd (by rw [hc]; omega)
      rw [hstep, hcalls, List.length_append, hc]
      simp only [List.length_cons, List.length_nil]
      omega
    · rw [if_neg hguard]
      have hlt : ¬ (s.counter + 1 < seq.length) := fun hA => hguard ⟨hA, hd0⟩
      have h0 : seq.length - 1 - s.counter = 0 := by omega
      omega

/-- C5: for every sequence with context length `C ≥ 1` whose entries from
position `C` onward are all pending, and a strategy that never signals
completion, the filling loop performs exactly `length − C` model
invocations. -/
theorem pending_tail_model_call_count (model : Model) {σ : Type}
    (strat : Strategy σ) (s0 : σ) (seq : List Int) (bs L : Nat)
    (gmpi : List Int → Toks × Mask × Pos) (mems : Option Mem) (C : Nat)
    (hscan : scanContext seq = some C) (hC : 1 ≤ C)
    (hpend : (seq.drop C).all (fun x => decide (x < 0)) = true)
    (hdone : ∀ s, strat.is_done s = false) :
    (filling_sequence_state model strat s0 seq bs L gmpi mems).map
        (fun b => b.calls.length) = .ok (seq.length - C) := by
  simp only [filling_sequence_state, hscan, if_neg (by omega : ¬ C = 0),
    Except.map]
  have hgen : ∀ s : BlockSt σ, s.counter = C - 1 → s.done = false →
      s.calls = [] →
      (blockLoop model strat seq (adjust_batch_size strat.num_beams bs).1 L
        (gmpi seq).2.2 (gmpi seq).2.1 seq.length s).calls.length
        = seq.length - C := by
    intro s hco hdo hca
    rw [blockLoop_calls_count model strat seq _ L _ _ hdone seq.length s
      (fun j hj1 hj2 => all_drop_neg seq C hpend j (by omega) hj2) hdo
      (by omega)]
    rw [hca]
    simp only [List.length_nil]
    omega
  rw [hgen _ rfl rfl rfl]

/-- C5 witness: sequence `[5, -1, -1]` (context length 1, two pending
slots) with a never-done strategy performs exactly 2 model calls. -/
theorem pending_tail_model_call_count_witness :
    scanContext [5, -1, -1] = some 1
    ∧ (1 : Nat) ≤ 1
    ∧ (([5, -1, -1] : List Int).drop 1).all (fun x => decide (x < 0)) = true
    ∧ (∀ s : Unit, appendStrategy.is_done s = false)
    ∧ (filling_sequence_state constModel appendStrategy () [5, -1, -1] 1 100
        get_masks_and_position_ids_default none).map (fun b => b.calls.length)
      = .ok (([5, -1, -1] : List Int).length - 1) :=
  ⟨rfl, by decide, by decide, fun _ => rfl,
   pending_tail_model_call_count constModel appendStrategy () [5, -1, -1] 1
     100 get_masks_and_position_ids_default none 1 rfl (by decide) (by decide)
     (fun _ => rfl)⟩

/-- The loop invariant for C6: every batch row has exactly `counter + 1`
committed entries, agrees with `seq` on every provided position it holds,
and every recorded model call happened at a pending position. -/
def committedInv (seq : List Int) (s : BlockSt σ) : Prop :=
  (∀ row ∈ s.tokens, row.length = s.counter + 1)
  ∧ (∀ row ∈ s.tokens, ∀ j, j < row.length → 0 ≤ seq.getD j 0 →
      row.getD j 0 = seq.getD j 0)
  ∧ (∀ j ∈ s.calls, seq.getD j 0 < 0)

theorem mem_expandRows {n : Nat} {t : List (List Int)} {row : List Int}
    (h : row ∈ expandRows n t) : row ∈ t := by
  unfold expandRows at h
  by_cases h1 : t.length = 1
  · rw [if_pos h1] at h
    rcases List.mem_replicate.mp h with ⟨hn, rfl⟩
    cases t with
    | nil => simp at h1
    | cons a t' => exact List.mem_cons_self a t'
  · rwa [if_neg h1] at h

theorem blockStep_committedInv (model : Model) {σ : Type} (strat : Strategy σ)
    (seq : List Int) (bs L : Nat) (pos : Pos) (msk : Mask) (s : BlockSt σ)
    (hrow : ∀ t lg tk m, ∀ row ∈ (strat.forward t lg tk m).2.1,
      ∃ r ∈ tk, ∃ x, row = r ++ [x])
    (hinv : committedInv seq s) :
    committedInv seq (blockStep model strat seq bs L pos msk s) := by
  obtain ⟨hlen, hval, hcalls⟩ := hinv
  unfold blockStep
  by_cases hp : 0 ≤ seq.getD (s.counter + 1) 0
  · rw [if_pos hp]
    refine ⟨?_, ?_, ?_⟩
    · intro row hrw
      rcases List.mem_map.mp hrw with ⟨r, hr, rfl⟩
      show (r ++ [seq.getD (s.counter + 1) 0]).length = (s.counter + 1) + 1
      rw [List.length_append, hlen r hr]
      rfl
    · intro row hrw j hj hge
      rcases List.mem_map.mp hrw with ⟨r, hr, rfl⟩
      rw [List.length_append] at hj
      by_cases hjr : j < r.length
      · rw [getD_append_lt _ _ j 0 hjr]
        exact hval r hr j hjr hge
      · have hj2 : j = r.length := by
          simp only [List.length_cons, List.length_nil] at hj
          omega
        subst hj2
        rw [getD_append_ge _ _ _ 0 (Nat.le_refl _), Nat.sub_self, hlen r hr]
        rfl
    · exact hcalls
  · rw [if_neg hp]
    refine ⟨?_, ?_, ?_⟩
    · intro row hrw
      rcases hrow _ _ _ _ row hrw with ⟨r, hr, x, rfl⟩
      have hr2 := mem_expandRows hr
      show (r ++ [x]).length = (s.counter + 1) + 1
      rw [List.length_append, hlen r hr2]
      rfl
    · intro row hrw j hj hge
      rcases hrow _ _ _ _ row hrw with ⟨r, hr, x, rfl⟩
      have hr2 := mem_expandRows hr
      rw [List.length_append] at hj
      by_cases hjr : j < r.length
      · rw [getD_append_lt _ _ j 0 hjr]
        exact hval r hr2 j hjr hge
      · exfalso
        have hj2 : j = r.length := by
          simp only [List.length_cons, List.length_nil] at hj
          omega
        have hrl : r.length = s.counter + 1 := hlen r hr2
        rw [hj2, hrl] at hge
        omega
    · intro j hj
      rcases List.mem_append.mp hj with hj | hj
      · exact hcalls j hj
      · simp only [List.mem_cons, List.not_mem_nil, or_false] at hj
        subst hj
        omega

theorem blockLoop_committedInv (model : Model) {σ : Type}
    (strat : Strategy σ) (seq : List Int) (bs L : Nat) (pos : Pos)
    (msk : Mask)
    (hrow : ∀ t lg tk m, ∀ row ∈ (strat.forward t lg tk m).2.1,
      ∃ r ∈ tk, ∃ x, row = r ++ [x]) :
    ∀ (fuel : Nat) (s : BlockSt σ), committedInv seq s →
      committedInv seq (blockLoop model strat seq bs L pos msk fuel s) := by
  intro fuel
  induction fuel with
  | zero =>
    intro s h
    rw [blockLoop]
    exact h
  | succ fuel ih =>
    intro s h
    rw [blockLoop]
    by_cases hg : s.counter + 1 < seq.length ∧ s.done = false
    · rw [if_pos hg]
      exact ih _ (blockStep_committedInv model strat seq bs L pos msk s hrow h)
    · rw [if_neg hg]
      exact h

/-- C6: with a strategy whose `forward` only extends (a selection of) the
input rows by one token — the strategy contract — and a builder whose
token rows are the sequence itself, every provided (non-negative) position
of `seq` that has been committed into the token buffer carries exactly its
`seq` value at the end of the loop (appended verbatim, never altered), and
every model call happened at a pending position. -/
theorem provided_positions_preserved (model : Model) {σ : Type}
    (strat : Strategy σ) (s0 : σ) (seq : List Int) (bs L : Nat)
    (gmpi : List Int → Toks × Mask × Pos) (mems : Option Mem)
    (hrow : ∀ t lg tk m, ∀ row ∈ (strat.forward t lg tk m).2.1,
      ∃ r ∈ tk, ∃ x, row = r ++ [x])
    (hg : ∀ row ∈ (gmpi seq).1, row = seq) :
    ∀ fin, filling_sequence_state model strat s0 seq bs L gmpi mems = .ok fin →
      (∀ j, 0 ≤ seq.getD j 0 → ∀ row ∈ fin.tokens, j < row.length →
        row.getD j 0 = seq.getD j 0)
      ∧ (∀ j ∈ fin.calls, seq.getD j 0 < 0) := by
  intro fin hfin
  cases hscan : scanContext seq with
  | none => simp [filling_sequence_state, hscan] at hfin
  | some C =>
    by_cases hC : C = 0
    · simp [filling_sequence_state, hscan, hC] at hfin
    · simp only [filling_sequence_state, hscan, if_neg hC,
        Except.ok.injEq] at hfin
      have hCb := scanContext_some seq C hscan
      have hinit : ∀ s : BlockSt σ,
          s.tokens = (gmpi seq).1.map (fun row => List.take C row) →
          s.counter = C - 1 → s.calls = [] → committedInv seq s := by
        intro s ht hc hca
        refine ⟨?_, ?_, ?_⟩
        · intro row hrw
          rw [ht] at hrw
          rcases List.mem_map.mp hrw with ⟨r, hr, rfl⟩
          rw [hg r hr, hc, List.length_take]
          omega
        · intro row hrw j hj hge
          rw [ht] at hrw
          rcases List.mem_map.mp hrw with ⟨r, hr, rfl⟩
          rw [hg r hr] at hj ⊢
          rw [List.length_take] at hj
          exact getD_take_eq seq C j 0 (by omega)
        · intro j hj
          rw [hca] at hj
          simp at hj
      rw [← hfin]
      constructor
      · intro j hge row hrw hj
        exact (blockLoop_committedInv model strat seq _ L _ _ hrow seq.length _
          (hinit _ rfl rfl rfl)).2.1 row hrw j hj hge
      · exact (blockLoop_committedInv model strat seq _ L _ _ hrow seq.length _
          (hinit _ rfl rfl rfl)).2.2

theorem updateCross_of_none (out : ModelOut) (old : Option CrossMem)
    (h : ∀ o ∈ out.per_layer, o.mem_cross = none) :
    updateCross out old = old := by
  unfold updateCross
  cases hh : out.per_layer.head? with
  | none => rfl
  | some o =>
    show (if o.mem_cross.isSome = true
      then some (out.per_layer.map fun p => p.mem_cross.getD [])
      else old) = old
    rw [h o (List.mem_of_mem_head? (by simp [hh]))]
    rfl

/-- The lock-step correspondence between the blocking and streaming loop
states: all shared locals agree, the blocking cross-memory is still unset,
and the ghost trace equals the yields handed to the caller. -/
def loopCorr (b : BlockSt σ) (s : StreamSt σ) : Prop :=
  b.tokens = s.tokens ∧ b.mems = s.mems ∧ b.counter = s.counter
  ∧ b.index = s.index ∧ b.sstate = s.sstate ∧ b.done = s.done
  ∧ b.mems_cross = none ∧ b.trace = s.yields

theorem step_corr (model : Model) {σ : Type} (strat : Strategy σ)
    (seq : List Int) (bs L : Nat) (pos : Pos) (msk : Mask)
    (hnc : ∀ t p m om oc, ∀ o ∈ (model.call t p m om oc).per_layer,
      o.mem_cross = none)
    (b : BlockSt σ) (s : StreamSt σ) (h : loopCorr b s) :
    loopCorr (blockStep model strat seq bs L pos msk b)
      (streamStep model strat seq bs L pos msk s) := by
  obtain ⟨h1, h2, h3, h4, h5, h6, h7, h8⟩ := h
  unfold blockStep streamStep
  rw [h1, h2, h3, h4, h5, h6, h7, h8]
  by_cases hp : 0 ≤ seq.getD (s.counter + 1) 0
  · rw [if_pos hp, if_pos hp]
    exact ⟨rfl, rfl, rfl, rfl, rfl, rfl, rfl, rfl⟩
  · rw [if_neg hp, if_neg hp]
    refine ⟨rfl, rfl, rfl, rfl, rfl, rfl, ?_, rfl⟩
    exact updateCross_of_none _ _ (hnc _ _ _ _ _)

theorem loop_corr (model : Model) {σ : Type} (strat : Strategy σ)
    (seq : List Int) (bs L : Nat) (pos : Pos) (msk : Mask)
    (hnc : ∀ t p m om oc, ∀ o ∈ (model.call t p m om oc).per_layer,
      o.mem_cross = none) :
    ∀ (fuel : Nat) (b : BlockSt σ) (s : StreamSt σ), loopCorr b s →
      loopCorr (blockLoop model strat seq bs L pos msk fuel b)
        (streamLoop model strat seq bs L pos msk fuel s) := by
  intro fuel
  induction fuel with
  | zero =>
    intro b s h
    rw [blockLoop, streamLoop]
    exact h
  | succ fuel ih =>
    intro b s h
    rw [blockLoop, streamLoop]
    have h3 := h.2.2.1
    have h6 := h.2.2.2.2.2.1
    rw [h3, h6]
    by_cases hg : s.counter + 1 < seq.length ∧ s.done = false
    · rw [if_pos hg, if_pos hg]
      exact ih _ _ (step_corr model strat seq bs L pos msk hnc b s h)
    · rw [if_neg hg, if_neg hg]
      exact h

theorem streamStep_counter (model : Model) {σ : Type} (strat : Strategy σ)
    (seq : List Int) (bs L : Nat) (pos : Pos) (msk : Mask) (s : StreamSt σ) :
    (streamStep model strat seq bs L pos msk s).counter = s.counter + 1 := by
  unfold streamStep
  by_cases hp : 0 ≤ seq.getD (s.counter + 1) 0
  · rw [if_pos hp]
  · rw [if_neg hp]

/-- The last value the streaming generator yielded is exactly its current
`(tokens, ·, mems)` state. -/
def lastMatches (s : StreamSt σ) : Prop :=
  (s.yields.getLastD ([], [], none)).1 = s.tokens
  ∧ (s.yields.getLastD ([], [], none)).2.2 = s.mems

theorem streamStep_model_last (model : Model) {σ : Type} (strat : Strategy σ)
    (seq : List Int) (bs L : Nat) (pos : Pos) (msk : Mask) (s : StreamSt σ)
    (h : ¬ 0 ≤ seq.getD (s.counter + 1) 0) :
    lastMatches (streamStep model strat seq bs L pos msk s)
    ∧ (streamStep model strat seq bs L pos msk s).yields ≠ [] := by
  unfold streamStep
  rw [if_neg h]
  refine ⟨⟨?_, ?_⟩, ?_⟩
  · simp only [List.getLastD_concat]
  · simp only [List.getLastD_concat]
  · simp

theorem streamLoop_last (model : Model) {σ : Type} (strat : Strategy σ)
    (seq : List Int) (bs L : Nat) (pos : Pos) (msk : Mask) :
    ∀ (fuel : Nat) (s : StreamSt σ),
      (∀ j, s.counter + 1 ≤ j → j < seq.length → seq.getD j 0 < 0) →
      (s.yields ≠ [] → lastMatches s) →
      ((streamLoop model strat seq bs L pos msk fuel s).yields ≠ [] →
        lastMatches (streamLoop model strat seq bs L pos msk fuel s))
      ∧ ((streamLoop model strat seq bs L pos msk fuel s).yields = [] →
        s.yields = []) := by
  intro fuel
  induction fuel with
  | zero =>
    intro s hall hl
    rw [streamLoop]
    exact ⟨hl, fun h => h⟩
  | succ fuel ih =>
    intro s hall hl
    rw [streamLoop]
    by_cases hg : s.counter + 1 < seq.length ∧ s.done = false
    · rw [if_pos hg]
      have hneg : ¬ 0 ≤ seq.getD (s.counter + 1) 0 := by
        have := hall (s.counter + 1) (Nat.le_refl _) hg.1
        omega
      have hsl := streamStep_model_last model strat seq bs L pos msk s hneg
      have hsc := streamStep_counter model strat seq bs L pos msk s
      have hih := ih (streamStep model strat seq bs L pos msk s)
        (fun j hj1 hj2 => hall j (by rw [hsc] at hj1; omega) hj2)
        (fun _ => hsl.1)
      exact ⟨hih.1, fun hfin => absurd (hih.2 hfin) hsl.2⟩
    · rw [if_neg hg]
      exact ⟨hl, fun h => h⟩

theorem streamLoop_run_last (model : Model) {σ : Type} (strat : Strategy σ)
    (seq : List Int) (bs L : Nat) (pos : Pos) (msk : Mask) (C : Nat)
    (hC1 : 1 ≤ C) (hClen : C < seq.length)
    (hall : ∀ j, C ≤ j → j < seq.length → seq.getD j 0 < 0) :
    ∀ s : StreamSt σ, s.counter = C - 1 → s.done = false → s.yields = [] →
      (streamLoop model strat seq bs L pos msk seq.length s).yields ≠ []
      ∧ lastMatches (streamLoop model strat seq bs L pos msk seq.length s) := by
  intro s hc hd hy
  have hall' : ∀ j, s.counter + 1 ≤ j → j < seq.length → seq.getD j 0 < 0 :=
    fun j h1 h2 => hall j (by omega) h2
  cases hfl : seq.length with
  | zero => omega
  | succ n =>
    rw [streamLoop, if_pos ⟨by omega, hd⟩]
    have hneg : ¬ 0 ≤ seq.getD (s.counter + 1) 0 := by
      have := hall (s.counter + 1) (by omega) (by omega)
      omega
    have hsl := streamStep_model_last model strat seq bs L pos msk s hneg
    have hsc := streamStep_counter model strat seq bs L pos msk s
    have hloop := streamLoop_last model strat seq bs L pos msk n
      (streamStep model strat seq bs L pos msk s)
      (fun j hj1 hj2 => hall' j (by rw [hsc] at hj1; omega) hj2)
      (fun _ => hsl.1)
    exact ⟨fun hcontra => hsl.2 (hloop.2 hcontra),
      hloop.1 (fun hcontra => hsl.2 (hloop.2 hcontra))⟩

theorem dropWhile_eq_drop_of_scan (l : List Int) :
    ∀ i C, scanContextGo i l = some C →
      l.dropWhile (fun x => decide (0 ≤ x)) = l.drop (C - i) := by
  induction l with
  | nil =>
    intro i C hs
    simp [scanContextGo] at hs
  | cons x xs ih =>
    intro i C hs
    unfold scanContextGo at hs
    by_cases hge : 0 ≤ x
    · rw [if_pos hge] at hs
      have hC1 := (scanContextGo_some xs (i + 1) C hs).1
      rw [List.dropWhile_cons, if_pos (by simpa using hge), ih (i + 1) C hs]
      have hCi : C - i = (C - (i + 1)) + 1 := by omega
      rw [hCi]
      rfl
    · rw [if_neg hge] at hs
      simp only [Option.some.injEq] at hs
      subst hs
      rw [List.dropWhile_cons, if_neg (by simpa using hge), Nat.sub_self]
      rfl

theorem pendingClosed_all (seq : List Int) (C : Nat)
    (hscan : scanContext seq = some C) (hp : pendingClosed seq = true) :
    ∀ j, C ≤ j → j < seq.length → seq.getD j 0 < 0 := by
  have hdw := dropWhile_eq_drop_of_scan seq 0 C hscan
  rw [Nat.sub_zero] at hdw
  unfold pendingClosed at hp
  rw [hdw] at hp
  exact fun j h1 h2 => all_drop_neg seq C hp j h1 h2

theorem stream_finalize_core (model : Model) {σ : Type} (strat : Strategy σ)
    (seq : List Int) (bs L : Nat) (pos : Pos) (msk : Mask) (C : Nat)
    (hnc : ∀ t p m om oc, ∀ o ∈ (model.call t p m om oc).per_layer,
      o.mem_cross = none)
    (hC1 : 1 ≤ C) (hClen : C < seq.length)
    (hall : ∀ j, C ≤ j → j < seq.length → seq.getD j 0 < 0) :
    ∀ (b : BlockSt σ) (s : StreamSt σ), loopCorr b s →
      s.counter = C - 1 → s.done = false → s.yields = [] →
      strat.finalize
        (streamLoop model strat seq bs L pos msk seq.length s).sstate
        ((streamLoop model strat seq bs L pos msk
          seq.length s).yields.getLastD ([], [], none)).1
        ((streamLoop model strat seq bs L pos msk
          seq.length s).yields.getLastD ([], [], none)).2.2
      = strat.finalize
          (blockLoop model strat seq bs L pos msk seq.length b).sstate
          (blockLoop model strat seq bs L pos msk seq.length b).tokens
          (blockLoop model strat seq bs L pos msk seq.length b).mems := by
  intro b s hcorr hc hd hy
  have hfin := loop_corr model strat seq bs L pos msk hnc seq.length b s hcorr
  have hlast := (streamLoop_run_last model strat seq bs L pos msk C hC1 hClen
    hall s hc hd hy).2
  rw [hlast.1, hlast.2, hfin.1, hfin.2.1, hfin.2.2.2.2.1]

/-- C7 (amended): for models that emit no cross-attention cache entries
(the blocking variant's `mems_cross` path is absent from the streaming
variant), the streaming variant executes the same algorithm as the
blocking variant: the sequence of yielded `(tokens, logits, memory)`
triples equals the blocking loop's sequence of after-step-(f) states; and
when additionally every entry after the first pending position is pending
(no provided tokens follow the last generated position), applying the
strategy's finalize to the last yielded state gives the blocking
variant's return value. -/
theorem stream_refines_blocking (model : Model) {σ : Type}
    (strat : Strategy σ) (s0 : σ) (seq : List Int) (bs L : Nat)
    (gmpi : List Int → Toks × Mask × Pos) (mems : Option Mem)
    (hnc : ∀ t p m om oc, ∀ o ∈ (model.call t p m om oc).per_layer,
      o.mem_cross = none) :
    ((stream_filling_sequence_state model strat s0 seq bs L gmpi mems).map
        (fun s => s.yields)
      = (filling_sequence_state model strat s0 seq bs L gmpi mems).map
        (fun b => b.trace))
    ∧ (pendingClosed seq = true →
      (stream_filling_sequence_state model strat s0 seq bs L gmpi mems).map
          (fun s => strat.finalize s.sstate
            (s.yields.getLastD ([], [], none)).1
            (s.yields.getLastD ([], [], none)).2.2)
        = filling_sequence model strat s0 seq bs L gmpi mems) := by
  cases hscan : scanContext seq with
  | none =>
    constructor
    · simp only [stream_filling_sequence_state, filling_sequence_state, hscan]
      rfl
    · intro hp
      simp only [stream_filling_sequence_state, filling_sequence,
        filling_sequence_state, hscan]
      rfl
  | some C =>
    by_cases hC : C = 0
    · constructor
      · simp only [stream_filling_sequence_state, filling_sequence_state,
          hscan, if_pos hC]
        rfl
      · intro hp
        simp only [stream_filling_sequence_state, filling_sequence,
          filling_sequence_state, hscan, if_pos hC]
        rfl
    · have hCb := scanContext_some seq C hscan
      constructor
      · simp only [stream_filling_sequence_state, filling_sequence_state,
          hscan, if_neg hC, Except.map]
        exact congrArg Except.ok
          ((loop_corr model strat seq _ L _ _ hnc seq.length _ _
            ⟨rfl, rfl, rfl, rfl, rfl, rfl, rfl, rfl⟩).2.2.2.2.2.2.2).symm
      · intro hp
        simp only [stream_filling_sequence_state, filling_sequence,
          filling_sequence_state, hscan, if_neg hC, Except.map]
        exact congrArg Except.ok
          (stream_finalize_core model strat seq _ L _ _ C hnc (by omega)
            hCb.1 (pendingClosed_all seq C hscan hp) _ _
            ⟨rfl, rfl, rfl, rfl, rfl, rfl, rfl, rfl⟩ rfl rfl rfl)

/-- C7 witness: a cross-free model and the append strategy on
`[5, -1, -1]`: the yields equal the blocking trace, and finalizing the
last yield reproduces the blocking result. -/
theorem stream_refines_blocking_witness :
    (∀ (t : Toks) (p : Pos) (m : Mask) (om : Option Mem)
        (oc : Option CrossMem),
      ∀ o ∈ (constModel.call t p m om oc).per_layer, o.mem_cross = none)
    ∧ ((stream_filling_sequence_state constModel appendStrategy () [5, -1, -1]
          1 100 get_masks_and_position_ids_default none).map (fun s => s.yields)
      = (filling_sequence_state constModel appendStrategy () [5, -1, -1]
          1 100 get_masks_and_position_ids_default none).map (fun b => b.trace))
    ∧ (pendingClosed [5, -1, -1] = true →
      (stream_filling_sequence_state constModel appendStrategy () [5, -1, -1]
          1 100 get_masks_and_position_ids_default none).map
          (fun s => appendStrategy.finalize s.sstate
            (s.yields.getLastD ([], [], none)).1
            (s.yields.getLastD ([], [], none)).2.2)
        = filling_sequence constModel appendStrategy () [5, -1, -1] 1 100
            get_masks_and_position_ids_default none) := by
  have h1 : ∀ (t : Toks) (p : Pos) (m : Mask) (om : Option Mem)
      (oc : Option CrossMem),
      ∀ o ∈ (constModel.call t p m om oc).per_layer, o.mem_cross = none := by
    intro t p m om oc o ho
    simp only [constModel, List.mem_singleton] at ho
    subst ho
    rfl
  exact ⟨h1,
    (stream_refines_blocking constModel appendStrategy () [5, -1, -1] 1 100
      get_masks_and_position_ids_default none h1).1,
    (stream_refines_blocking constModel appendStrategy () [5, -1, -1] 1 100
      get_masks_and_position_ids_default none h1).2⟩

set_option synthInstance.maxSize 512 in
/-- C7 counterexample: with a model that reads and emits a cross-attention
cache (`crossModel`), the streaming variant's yields diverge from the
blocking variant's after-step-(f) states from the second step on (the
streaming code never passes `mems_cross`); and with a provided token after
the generated position (`[5, -1, 7]`), finalizing the last yielded state
does not give the blocking variant's return value. -/
theorem stream_vs_blocking_diverge :
    ¬ ((stream_filling_sequence_state crossModel appendStrategy () [5, -1, -1]
          1 100 get_masks_and_position_ids_default none).toOption.map
        (fun s => s.yields)
      = (filling_sequence_state crossModel appendStrategy () [5, -1, -1]
          1 100 get_masks_and_position_ids_default none).toOption.map
        (fun b => b.trace))
    ∧ ¬ ((stream_filling_sequence_state constModel appendStrategy () [5, -1, 7]
          1 100 get_masks_and_position_ids_default none).toOption.map
          (fun s => appendStrategy.finalize s.sstate
            (s.yields.getLastD ([], [], none)).1
            (s.yields.getLastD ([], [], none)).2.2)
        = (filling_sequence constModel appendStrategy () [5, -1, 7] 1 100
            get_masks_and_position_ids_default none).toOption) := by decide

/-- C6 witness: sequence `[5, -1, 7, -1]` mixing provided and pending
entries, with the greedy-style append strategy (which satisfies the
row-extension contract) and the default builder: provided positions keep
their values in every row of the final token buffer, and model calls
happen only at the pending positions. -/
theorem provided_positions_preserved_witness :
    (∀ (t : Unit) (lg : Logits) (tk : Toks) (m : Option Mem),
      ∀ row ∈ (appendStrategy.forward t lg tk m).2.1,
        ∃ r ∈ tk, ∃ x, row = r ++ [x])
    ∧ (∀ row ∈ (get_masks_and_position_ids_default [5, -1, 7, -1]).1,
        row = [5, -1, 7, -1])
    ∧ ∀ fin, filling_sequence_state constModel appendStrategy ()
          [5, -1, 7, -1] 1 100 get_masks_and_position_ids_default none
          = .ok fin →
        (∀ j, 0 ≤ ([5, -1, 7, -1] : List Int).getD j 0 →
          ∀ row ∈ fin.tokens, j < row.length →
            row.getD j 0 = ([5, -1, 7, -1] : List Int).getD j 0)
        ∧ (∀ j ∈ fin.calls, ([5, -1, 7, -1] : List Int).getD j 0 < 0) := by
  have h1 : ∀ (t : Unit) (lg : Logits) (tk : Toks) (m : Option Mem),
      ∀ row ∈ (appendStrategy.forward t lg tk m).2.1,
        ∃ r ∈ tk, ∃ x, row = r ++ [x] := by
    intro t lg tk m row hrw
    rcases List.mem_map.mp hrw with ⟨r, hr, rfl⟩
    exact ⟨r, hr, _, rfl⟩
  have h2 : ∀ row ∈ (get_masks_and_position_ids_default [5, -1, 7, -1]).1,
      row = [5, -1, 7, -1] := by decide
  exact ⟨h1, h2, provided_positions_preserved constModel appendStrategy ()
    [5, -1, 7, -1] 1 100 get_masks_and_position_ids_default none h1 h2⟩

/-- C9 witness: beam width 2 with batch size 1 is widened with a notice;
with batch size 3 it is untouched and silent; widening does not make the
call fail on a concrete run. -/
theorem batch_size_widening_witness :
    adjust_batch_size (some 2) 1 = (2, true)
    ∧ adjust_batch_size (some 2) 3 = (3, false)
    ∧ (filling_sequence_state constModel appendStrategy () [5, -1, -1] 1 100
        get_masks_and_position_ids_default none).isOk
      = (filling_sequence_state constModel appendStrategy () [5, -1, -1] 2 100
        get_masks_and_position_ids_default none).isOk :=
  ⟨(batch_size_widening 2 1).1 (by decide),
   (batch_size_widening 2 3).2.1 (by decide),
   (batch_size_widening 2 1).2.2 Unit constModel appendStrategy () [5, -1, -1]
     100 get_masks_and_position_ids_default none⟩

end SatGen
